import Mathlib

set_option maxRecDepth 40000

namespace UcT

/-! Shallow embedding of the core pipeline of src/UcT.py: the URL normalizer
(UctEngine.normalize_url), the text extractor (UctEngine.extract_from_text and
UctEngine._extract_text_urls with the two regex passes from UctConfig.URL_REGEX),
the batched verifier (UctVerifier.verify_urls / _verify_url / _handle_error) and
the consumption loop of UctApp.verify_urls_async.  Python strings are modelled
as List Char. -/

/-- UctConfig.MAX_WORKERS (UcT.py line 30). -/
def MAX_WORKERS : Nat := 24

/-- UctConfig.MAX_ASYNC_TASKS (UcT.py line 31). -/
def MAX_ASYNC_TASKS : Nat := 256

/-- UctConfig.REQUEST_TIMEOUT in seconds (UcT.py line 32). -/
def REQUEST_TIMEOUT : Nat := 10

/-- UctConfig.CACHE_SIZE (UcT.py line 35). -/
def CACHE_SIZE : Nat := 1024

/-- UctConfig.CHUNK_SIZE, the batch size of the verifier (UcT.py line 36). -/
def CHUNK_SIZE : Nat := 50

/-- Whitespace recognized by the bare str.strip() call in normalize_url,
restricted to the ASCII range (space, tab, newline, carriage return,
vertical tab, form feed). -/
def is_space (c : Char) : Bool :=
  c == ' ' || c == '\t' || c == '\n' || c == '\r' || c == Char.ofNat 11 || c == Char.ofNat 12

/-- The fixed trailing-punctuation set of the rstrip call in normalize_url
(UcT.py line 98). -/
def is_trailing_punct (c : Char) : Bool :=
  c == '.' || c == ',' || c == ':' || c == ';' || c == '!' || c == '?'

/-- Remove the maximal run of characters satisfying p from the end of the list;
this is Python str.rstrip with the character class p. -/
def dropTrailing (p : Char → Bool) (l : List Char) : List Char :=
  (l.reverse.dropWhile p).reverse

/-- Python str.strip() with no argument: whitespace removed from both ends. -/
def pyStrip (l : List Char) : List Char :=
  dropTrailing is_space (l.dropWhile is_space)

/-- The unicodedata.normalize NFC step of normalize_url (UcT.py line 99).
NFC is the identity on ASCII text; the embedding works over the (already
composed) character sequences the claims exercise, so the step is the
identity here. -/
def nfc (l : List Char) : List Char := l

/-- Python str.lower restricted to ASCII letters (the only characters the
claims put into host names); other characters are left unchanged. -/
def to_lower : Char → Char
  | 'A' => 'a'
  | 'B' => 'b'
  | 'C' => 'c'
  | 'D' => 'd'
  | 'E' => 'e'
  | 'F' => 'f'
  | 'G' => 'g'
  | 'H' => 'h'
  | 'I' => 'i'
  | 'J' => 'j'
  | 'K' => 'k'
  | 'L' => 'l'
  | 'M' => 'm'
  | 'N' => 'n'
  | 'O' => 'o'
  | 'P' => 'p'
  | 'Q' => 'q'
  | 'R' => 'r'
  | 'S' => 's'
  | 'T' => 't'
  | 'U' => 'u'
  | 'V' => 'v'
  | 'W' => 'w'
  | 'X' => 'x'
  | 'Y' => 'y'
  | 'Z' => 'z'
  | c => c

/-- Does the second list start with the first one. -/
def startsWithL : List Char → List Char → Bool
  | [], _ => true
  | _ :: _, [] => false
  | p :: ps, c :: cs => p == c && startsWithL ps cs

/-- Substring containment, Python's infix containment test on strings. -/
def containsSub (pat : List Char) : List Char → Bool
  | [] => pat.isEmpty
  | c :: rest => startsWithL pat (c :: rest) || containsSub pat rest

/-- The literal prefix http with separator. -/
def httpMark : List Char := "http://".data

/-- The literal prefix https with separator. -/
def httpsMark : List Char := "https://".data

/-- The protocol-relative prefix. -/
def slashSlash : List Char := "//".data

/-- The scheme separator. -/
def schemeSep : List Char := "://".data

/-- Characters that end the netloc component in urlparse. -/
def netlocChar (c : Char) : Bool := !(c == '/' || c == '?' || c == '#')

/-- Characters that end the path component (start of query or fragment). -/
def pathChar (c : Char) : Bool := !(c == '?' || c == '#')

/-- urllib.parse.urlparse restricted to the inputs normalize_url feeds it: a
string that starts with the literal prefix http:// or https:// (the code
guarantees this before parsing).  Returns the scheme and the remainder after
the scheme separator. -/
def splitScheme (l : List Char) : Option (List Char × List Char) :=
  if startsWithL httpsMark l then some ("https".data, l.drop 8)
  else if startsWithL httpMark l then some ("http".data, l.drop 7)
  else none

/-- UctEngine.normalize_url (UcT.py lines 92-122): strip surrounding
whitespace and trailing punctuation, NFC-normalize, infer a scheme when
missing (protocol-relative and bare host.tld forms), parse, reject an empty
netloc, lower-case the netloc and rebuild scheme://netloc/path, discarding
query and fragment.  Any rejection is the sentinel none (the Python code
catches every exception and returns None). -/
def normalize_url (raw : List Char) : Option (List Char) :=
  let url0 := nfc (dropTrailing is_trailing_punct (pyStrip raw))
  let with_scheme : Option (List Char) :=
    if startsWithL httpMark url0 || startsWithL httpsMark url0 then some url0
    else if startsWithL slashSlash url0 then some ("https:".data ++ url0)
    else if !(containsSub schemeSep url0) && url0.contains '.' then some (httpsMark ++ url0)
    else none
  match with_scheme with
  | none => none
  | some url =>
    match splitScheme url with
    | none => none
    | some (scheme, rest) =>
      let netloc := rest.takeWhile netlocChar
      if netloc.isEmpty then none
      else
        let path := (rest.drop netloc.length).takeWhile pathChar
        some (scheme ++ schemeSep ++ netloc.map to_lower ++ path)

/-- The apostrophe character excluded by the URL_REGEX body class. -/
def quote1 : Char := Char.ofNat 39

/-- The double-quote character excluded by the URL_REGEX body class. -/
def quote2 : Char := Char.ofNat 34

/-- Body-character class of UctConfig.URL_REGEX (UcT.py line 34): any
character other than a left angle bracket, whitespace, an apostrophe or a
double quote. -/
def urlBodyChar (c : Char) : Bool := !(c == '<' || c == quote1 || c == quote2 || is_space c)

/-- One anchored attempt of URL_REGEX after a scheme prefix of the given
length: the greedy body run must have at least 8 characters; on success the
whole match and the remaining text are returned. -/
def matchBody (schemeLen : Nat) (l : List Char) : Option (List Char × List Char) :=
  let rest := l.drop schemeLen
  let body := rest.takeWhile urlBodyChar
  if 8 ≤ body.length then some (l.take schemeLen ++ body, rest.drop body.length) else none

/-- One anchored attempt of UctConfig.URL_REGEX at the head of the text. -/
def matchUrlAt (l : List Char) : Option (List Char × List Char) :=
  if startsWithL httpsMark l then matchBody 8 l
  else if startsWithL httpMark l then matchBody 7 l
  else none

/-- Left-to-right non-overlapping scan of re.findall, with explicit fuel (one
unit per scan position; a successful match consumes at least 15 characters,
a failed position advances by one, so fuel equal to the text length runs the
scan to completion). -/
def findAllFuel : Nat → List Char → List (List Char)
  | 0, _ => []
  | fuel + 1, l =>
    match matchUrlAt l with
    | some (m, r) => m :: findAllFuel fuel r
    | none =>
      match l with
      | [] => []
      | _ :: rest => findAllFuel fuel rest

/-- re.findall(UctConfig.URL_REGEX, text), the single pass used by
UctEngine.extract_from_text (UcT.py line 222) and the first pass of
UctEngine._extract_text_urls (UcT.py line 178). -/
def findAll (l : List Char) : List (List Char) := findAllFuel l.length l

/-- Body class of the second regex of _extract_text_urls (UcT.py line 181):
any character other than a left angle bracket or whitespace. -/
def urlBodyChar2 (c : Char) : Bool := !(c == '<' || is_space c)

/-- Final-character class of the second regex: any character other than
whitespace or a right angle bracket. -/
def lastChar2 (c : Char) : Bool := !(c == '>' || is_space c)

/-- Backtracking tail of the second regex when the character after the greedy
run cannot serve as the final character: the final character is then the last
run character that is not a right angle bracket, and the quantified part
keeps at least 8 characters before it (9 in total). -/
def matchTail2 (schemeLen : Nat) (l rest run : List Char) : Option (List Char × List Char) :=
  let t := dropTrailing (fun c => c == '>') run
  if 9 ≤ t.length then some (l.take schemeLen ++ t, rest.drop t.length) else none

/-- One anchored attempt of the second regex of _extract_text_urls after a
scheme prefix of the given length: a greedy run of at least 8 body characters
followed by one final character; the greedy engine first offers the character
just after the run (possible only when that character is a left angle
bracket, the sole run-stopper allowed as final character), then backtracks
into the run. -/
def matchBody2 (schemeLen : Nat) (l : List Char) : Option (List Char × List Char) :=
  let rest := l.drop schemeLen
  let run := rest.takeWhile urlBodyChar2
  match rest.drop run.length with
  | a :: after2 =>
    if 8 ≤ run.length && lastChar2 a then
      some (l.take schemeLen ++ run ++ [a], after2)
    else
      matchTail2 schemeLen l rest run
  | [] => matchTail2 schemeLen l rest run

/-- One anchored attempt of the second regex at the head of the text. -/
def matchUrlAt2 (l : List Char) : Option (List Char × List Char) :=
  if startsWithL httpsMark l then matchBody2 8 l
  else if startsWithL httpMark l then matchBody2 7 l
  else none

/-- Fueled findall scan for the second regex. -/
def findAll2Fuel : Nat → List Char → List (List Char)
  | 0, _ => []
  | fuel + 1, l =>
    match matchUrlAt2 l with
    | some (m, r) => m :: findAll2Fuel fuel r
    | none =>
      match l with
      | [] => []
      | _ :: rest => findAll2Fuel fuel rest

/-- The second findall pass of UctEngine._extract_text_urls (UcT.py line
181). -/
def findAll2 (l : List Char) : List (List Char) := findAll2Fuel l.length l

/-- A candidate record, the dictionary shape produced by the extractor
(original_url, normalized_url, source_file). -/
structure UrlInfo where
  original_url : List Char
  normalized_url : List Char
  source_file : List Char
deriving DecidableEq

/-- The default source_name of UctEngine.extract_from_text (UcT.py line 217),
the fixed identifier for manual input; every caller in UcT.py uses this
default. -/
def manual_source : List Char := "手动输入".data

/-- The set-accumulation loop of extract_from_text: each findall match is
normalized and, when normalization succeeds, added to the set of normalized
forms.  The Python set is modelled as a first-insertion-ordered list without
duplicates (no claim depends on the iteration order of the set). -/
def collect_normalized : List (List Char) → List (List Char) → List (List Char)
  | [], acc => acc
  | m :: ms, acc =>
    match normalize_url m with
    | some n => collect_normalized ms (if acc.contains n then acc else acc ++ [n])
    | none => collect_normalized ms acc

/-- UctEngine.extract_from_text (UcT.py lines 216-233): scan the text with
URL_REGEX, normalize every match, collect the successful normalized forms as
a set, and emit one record per member with original_url and normalized_url
both set to the normalized form and source_file set to the source name. -/
def extract_from_text (text source_name : List Char) : List UrlInfo :=
  (collect_normalized (findAll text) []).map
    (fun u => { original_url := u, normalized_url := u, source_file := source_name })

/-- Union of the two match sets of _extract_text_urls, modelled as a
first-occurrence-ordered list without duplicates. -/
def dedupMatches (ms : List (List Char)) : List (List Char) :=
  ms.foldl (fun acc m => if acc.contains m then acc else acc ++ [m]) []

/-- UctEngine._normalize_urls (UcT.py lines 202-214): keep the raw match as
original_url next to its normalized form, dropping matches that fail to
normalize. -/
def normalize_urls (urls : List (List Char)) (file_path : List Char) : List UrlInfo :=
  urls.filterMap (fun u => (normalize_url u).map
    (fun n => { original_url := u, normalized_url := n, source_file := file_path }))

/-- UctEngine._extract_text_urls (UcT.py lines 174-183): two findall passes
over the text, merged as a set, then _normalize_urls. -/
def extract_text_urls (content file_path : List Char) : List UrlInfo :=
  normalize_urls (dedupMatches (findAll content ++ findAll2 content)) file_path

/-- A transport failure, abstracting a Python exception: the name of its type
and its textual description (what str applied to it yields). -/
structure Exc where
  typeName : List Char
  text : List Char
deriving DecidableEq

/-- The outcome of the network probe for one URL: either a numeric HTTP
status (from the HEAD request or the GET fallback) together with the elapsed
wall-clock time, or a transport failure.  The network is an external
collaborator; the engine is verified for every possible outcome. -/
inductive ProbeOutcome where
  | ok (status : Nat) (elapsed : Nat)
  | fail (e : Exc)
deriving DecidableEq

/-- The result dictionary built by UctVerifier._verify_url.  Elapsed time is
kept as the abstract Nat supplied by the probe outcome (the Python rounding
of the float is not modelled; no claim concerns the timing value). -/
structure VResult where
  original_url : List Char
  normalized_url : List Char
  source_file : List Char
  status_code : Nat
  status : List Char
  emoji : List Char
  response_time : Nat
  error_message : List Char
deriving DecidableEq

/-- The initial result dictionary of _verify_url (UcT.py lines 268-275):
the candidate fields plus status code 0, unknown status and empty error
message. -/
def init_result (u : UrlInfo) : VResult :=
  { original_url := u.original_url
    normalized_url := u.normalized_url
    source_file := u.source_file
    status_code := 0
    status := "未知".data
    emoji := "❓".data
    response_time := 0
    error_message := [] }

/-- UctVerifier._handle_error (UcT.py lines 326-351): lower-case the failure
description and assign the first matching error category, in the fixed order
timeout, connection refused, dns failure, tls failure, rate limited, generic
network error; finally record the truncated error message. -/
def handle_error (r : VResult) (e : Exc) : VResult :=
  let err := e.text.map to_lower
  let r1 :=
    if containsSub "timed out".data err then
      { r with status := "超时".data, emoji := "⌛".data }
    else if containsSub "cannot connect".data err then
      { r with status := "无法连接".data, emoji := "🔌".data }
    else if containsSub "name not known".data err || containsSub "gaierror".data err then
      { r with status := "域名错误".data, emoji := "🌐".data }
    else if containsSub "ssl".data err || containsSub "certificate".data err then
      { r with status := "SSL错误".data, emoji := "🔒".data }
    else if containsSub "too many".data err then
      { r with status := "请求过多".data, emoji := "🆘".data }
    else
      { r with status := "网络错误".data, emoji := "❌".data }
  { r1 with error_message := e.typeName ++ ": ".data ++ e.text.take 120 }

/-- UctVerifier._verify_url (UcT.py lines 263-324): an empty normalized URL
is answered locally as invalid with status code 0; otherwise the probe
outcome is classified, a numeric status by the fixed breakpoints below 200,
300, 400 and 500, a transport failure through _handle_error. -/
def verify_url (u : UrlInfo) (oc : ProbeOutcome) : VResult :=
  let r := init_result u
  if u.normalized_url.isEmpty then
    { r with status := "无效".data, emoji := "❌".data, error_message := "空URL".data }
  else
    match oc with
    | .ok status elapsed =>
      let r1 :=
        if status < 200 then { r with status := "信息响应".data, emoji := "ℹ️".data }
        else if status < 300 then { r with status := "活跃".data, emoji := "✅".data }
        else if status < 400 then { r with status := "重定向".data, emoji := "🔄".data }
        else if status < 500 then { r with status := "客户端错误".data, emoji := "⚠️".data }
        else { r with status := "服务器错误".data, emoji := "❌".data }
      { r1 with status_code := status, response_time := elapsed }
    | .fail e => handle_error r e

/-- UctVerifier.verify_urls (UcT.py lines 238-261): the candidate list is cut
into CHUNK_SIZE batches in input order, each batch is verified concurrently
(asyncio.gather returns the batch results in task order) and the batch
results are appended in batch order.  The probe oracle gives each candidate
its network outcome.  The function has no cancellation input because the
source function never consults the shared running flag. -/
def verify_urls (probe : UrlInfo → ProbeOutcome) (urls : List UrlInfo) : List VResult :=
  let batch_size := CHUNK_SIZE
  let batches := (urls.length + batch_size - 1) / batch_size
  ((List.range batches).map
    (fun i => ((urls.drop (i * batch_size)).take batch_size).map
      (fun u => verify_url u (probe u)))).flatten

/-- The result-consumption loop of UctApp.verify_urls_async (UcT.py lines
855-874): iterate over the already computed result list in CHUNK_SIZE
steps, checking the shared running flag before each batch and stopping at
the first check that finds it cleared.  The flag is modelled as a function
of the check index.  Fuel is the iteration count of the Python range. -/
def consume_go (running : Nat → Bool) (results : List VResult) (bs : Nat) :
    Nat → Nat → List (List VResult)
  | 0, _ => []
  | fuel + 1, j =>
    if running j then
      ((results.drop (j * bs)).take bs) :: consume_go running results bs fuel (j + 1)
    else []

/-- UctApp.verify_urls_async (UcT.py lines 846-877): first the whole
verification runs to completion through UctVerifier.verify_urls, then the
finished result list is consumed batch by batch under the running flag.
The first component is the list stored into self.results at the end (UcT.py
line 877, reached on break as well); the second is the sequence of batches
actually handed to process_results_batch. -/
def verify_urls_async_run (running : Nat → Bool) (probe : UrlInfo → ProbeOutcome)
    (urls : List UrlInfo) : List VResult × List (List VResult) :=
  let results := verify_urls probe urls
  let iters := (results.length + CHUNK_SIZE - 1) / CHUNK_SIZE
  (results, consume_go running results CHUNK_SIZE iters 0)

/-- The concurrency ceiling of the verifier: asyncio.Semaphore with value
min(UctConfig.MAX_ASYNC_TASKS, 100) (UcT.py line 242), created once per run
and shared by every batch. -/
def concurrency_limit : Nat := min MAX_ASYNC_TASKS 100

/-- Abstract state of one verification run for the concurrency claim: how
many probes have not yet been admitted by the semaphore, how many are in
flight holding a semaphore permit, and how many have finished. -/
structure VerifierState where
  pending : Nat
  inflight : Nat
  done : Nat
deriving DecidableEq

/-- Initial state: all candidates pending, nothing in flight. -/
def vinit (n : Nat) : VerifierState := { pending := n, inflight := 0, done := 0 }

/-- Interleaving semantics of the run: a pending probe may start only when
the semaphore has a free permit (fewer than concurrency_limit holders, the
acquire guard of the async-with block at UcT.py lines 244-246), and an
in-flight probe may finish at any time, releasing its permit. -/
inductive VStep : VerifierState → VerifierState → Prop
  | start (s : VerifierState) (hp : 0 < s.pending) (hsem : s.inflight < concurrency_limit) :
      VStep s { pending := s.pending - 1, inflight := s.inflight + 1, done := s.done }
  | finish (s : VerifierState) (hr : 0 < s.inflight) :
      VStep s { pending := s.pending, inflight := s.inflight - 1, done := s.done + 1 }

/-- Reachability under the step relation from a given initial state. -/
inductive VReach (init : VerifierState) : VerifierState → Prop
  | refl : VReach init init
  | step {s s' : VerifierState} : VReach init s → VStep s s' → VReach init s'

/-- The seven status labels that mark an error result (no HTTP code was
obtainable): timeout, connection refused, dns failure, tls failure, rate
limited, generic network error, and the local invalid label. -/
def error_categories : List (List Char) :=
  ["超时".data, "无法连接".data, "域名错误".data, "SSL错误".data,
   "请求过多".data, "网络错误".data, "无效".data]

/-- The six network-failure labels assigned by _handle_error. -/
def network_error_labels : List (List Char) :=
  ["超时".data, "无法连接".data, "域名错误".data, "SSL错误".data,
   "请求过多".data, "网络错误".data]

/-- The error taxonomy of the specification, section 7, as an ordered rule
list: each rule pairs a keyword test on the lowercased failure description
with its category label, in the precedence order timeout, connection
refused, dns failure, tls failure, rate limited. -/
def error_rules : List ((List Char → Bool) × List Char) :=
  [(fun err => containsSub "timed out".data err, "超时".data),
   (fun err => containsSub "cannot connect".data err, "无法连接".data),
   (fun err => containsSub "name not known".data err || containsSub "gaierror".data err,
    "域名错误".data),
   (fun err => containsSub "ssl".data err || containsSub "certificate".data err,
    "SSL错误".data),
   (fun err => containsSub "too many".data err, "请求过多".data)]

/-- First-match-wins evaluation of an ordered rule list, with a default
label when no rule matches. -/
def first_match : List ((List Char → Bool) × List Char) → List Char → List Char → List Char
  | [], dflt, _ => dflt
  | (p, lbl) :: rules, dflt, err => if p err then lbl else first_match rules dflt err

/-- A concrete candidate record used by counterexamples and witnesses. -/
def sampleUrl : UrlInfo :=
  { original_url := "https://a.com/x".data
    normalized_url := "https://a.com/x".data
    source_file := manual_source }

/-- A concrete timed-out transport failure. -/
def timeoutExc : Exc :=
  { typeName := "TimeoutError".data, text := "Operation timed out".data }

/-- A concrete candidate produced from manual text input. -/
def sampleCandidate : UrlInfo :=
  { original_url := "http://example.com/Page".data
    normalized_url := "http://example.com/Page".data
    source_file := manual_source }

/-- The part of a regex match after its scheme prefix (the matches of both
URL regexes always start with http:// or https://). -/
def afterScheme (m : List Char) : List Char :=
  if startsWithL httpsMark m then m.drop 8 else m.drop 7

/-- Check on the final character used by the amended idempotence claim: true
when the list is empty or its last character is neither whitespace nor one
of the stripped trailing-punctuation characters. -/
def tail_ok (l : List Char) : Bool :=
  match l.getLast? with
  | some c => !(is_space c || is_trailing_punct c)
  | none => true

lemma div_ceil_succ {bs n : Nat} (hbs : 0 < bs) (hn : 0 < n) :
    (n + bs - 1) / bs = (n - bs + bs - 1) / bs + 1 := by
  rcases Nat.le_total bs n with h | h
  · have e1 : n + bs - 1 = (n - bs + bs - 1) + bs := by omega
    rw [e1, Nat.add_div_right _ hbs]
  · have e1 : n - bs = 0 := by omega
    have e2 : n + bs - 1 = (n - 1) + bs := by omega
    have e3 : (n - 1) / bs = 0 := Nat.div_eq_of_lt (by omega)
    have e4 : (0 + bs - 1) / bs = 0 := Nat.div_eq_of_lt (by omega)
    rw [e1, e2, Nat.add_div_right _ hbs, e3, e4]

lemma join_chunks {α β : Type} (f : α → β) (bs : Nat) (hbs : 0 < bs) :
    ∀ (n : Nat) (l : List α), l.length ≤ n →
      ((List.range ((l.length + bs - 1) / bs)).map
        (fun i => ((l.drop (i * bs)).take bs).map f)).flatten = l.map f := by
  intro n
  induction n with
  | zero =>
    intro l hl
    have hnil : l = [] := List.length_eq_zero.mp (Nat.le_zero.mp hl)
    subst hnil
    have h0 : (0 + bs - 1) / bs = 0 := Nat.div_eq_of_lt (by omega)
    simp [h0]
  | succ n ih =>
    intro l hl
    rcases hL : l with _ | ⟨a, l'⟩
    · have h0 : (0 + bs - 1) / bs = 0 := Nat.div_eq_of_lt (by omega)
      simp [h0]
    · rw [← hL]
      have hlen : 0 < l.length := by rw [hL]; simp
      rw [show l.length + bs - 1 = l.length + bs - 1 from rfl, div_ceil_succ hbs hlen]
      rw [List.range_succ_eq_map]
      simp only [List.map_cons, List.flatten_cons, List.map_map, Nat.zero_mul, List.drop_zero]
      have hdl : (l.drop bs).length = l.length - bs := by simp
      have hrest : ((List.range ((l.length - bs + bs - 1) / bs)).map
            (fun i => ((l.drop ((i + 1) * bs)).take bs).map f))
          = ((List.range (((l.drop bs).length + bs - 1) / bs)).map
            (fun i => (((l.drop bs).drop (i * bs)).take bs).map f)) := by
        rw [hdl]
        refine List.map_congr_left ?_
        intro i _
        rw [List.drop_drop]
        have e : (i + 1) * bs = bs + i * bs := by ring
        rw [e]
      have hcomp : (fun i => ((l.drop ((i + 1) * bs)).take bs).map f)
          = ((fun i => ((l.drop (i * bs)).take bs).map f) ∘ Nat.succ) := by
        funext i
        rfl
      rw [← hcomp] at *
      rw [hrest]
      rw [ih (l.drop bs) (by omega)]
      rw [← List.map_append, List.take_append_drop]

/-- Claim C3: an uncancelled verification run answers every input candidate
exactly once, in batchwise input order: the batched result list of
UctVerifier.verify_urls equals the direct candidate-by-candidate map, so in
particular it has exactly the length of the input list. -/
theorem verify_urls_complete (probe : UrlInfo → ProbeOutcome) (urls : List UrlInfo) :
    verify_urls probe urls = urls.map (fun u => verify_url u (probe u)) ∧
    (verify_urls probe urls).length = urls.length := by
  have h : verify_urls probe urls = urls.map (fun u => verify_url u (probe u)) := by
    unfold verify_urls
    exact join_chunks _ CHUNK_SIZE (by decide) urls.length urls (Nat.le_refl _)
  exact ⟨h, by rw [h, List.length_map]⟩

/-- Claim C4: in every state reachable during a verification run, the number
of in-flight probes never exceeds the semaphore value min(MAX_ASYNC_TASKS,
100); the single semaphore guards admission across all batches of the run. -/
theorem inflight_probes_le_concurrency_limit (n : Nat) (s : VerifierState)
    (h : VReach (vinit n) s) : s.inflight ≤ concurrency_limit := by
  induction h with
  | refl => simp [vinit]
  | step _ hstep ih =>
    cases hstep with
    | start hp hsem => simpa using hsem
    | finish hr => simp; omega

/-- Witness for claim C4 at a concrete run of 5 candidates and its initial
state. -/
theorem inflight_probes_le_concurrency_limit_witness :
    (vinit 5).inflight ≤ concurrency_limit :=
  inflight_probes_le_concurrency_limit 5 (vinit 5) VReach.refl

lemma consume_go_eq (running : Nat → Bool) (res : List VResult) (bs : Nat) :
    ∀ (iters j k : Nat), (∀ t, t < k → running (j + t) = true) → running (j + k) = false →
      consume_go running res bs iters j =
        (List.range (min k iters)).map (fun t => (res.drop ((j + t) * bs)).take bs) := by
  intro iters
  induction iters with
  | zero =>
    intro j k _ _
    simp [consume_go]
  | succ iters ih =>
    intro j k htrue hfalse
    rcases k with _ | k
    · have h0 : running j = false := by simpa using hfalse
      simp [consume_go, h0]
    · have h1 : running j = true := by simpa using htrue 0 (by omega)
      have htrue2 : ∀ t, t < k → running (j + 1 + t) = true := by
        intro t ht
        have e : j + 1 + t = j + (t + 1) := by omega
        rw [e]
        exact htrue (t + 1) (by omega)
      have hfalse2 : running (j + 1 + k) = false := by
        have e : j + 1 + k = j + (k + 1) := by omega
        rw [e]
        exact hfalse
      have ihx := ih (j + 1) k htrue2 hfalse2
      simp only [consume_go, h1, if_true]
      rw [ihx, Nat.succ_min_succ, List.range_succ_eq_map]
      simp only [List.map_cons, List.map_map, Nat.add_zero]
      congr 1
      refine List.map_congr_left ?_
      intro t _
      have e : j + 1 + t = j + (t + 1) := by omega
      simp [Function.comp, e]

/-- Claim C2 (amended): the verification engine itself never polls the
cancellation flag: UctVerifier.verify_urls takes no cancellation input and
the stored result list always covers every batch, whatever the flag does.
The flag is checked at batch boundaries only by the result-consumption loop
of verify_urls_async: when the flag is true for the first k checks and
cleared at check k, exactly the first k batches (or all of them, if fewer
exist) are handed to the consumer, each one complete. -/
theorem engine_ignores_cancellation_consumer_stops_at_flag
    (running : Nat → Bool) (probe : UrlInfo → ProbeOutcome) (urls : List UrlInfo) (k : Nat)
    (htrue : ∀ j, j < k → running j = true) (hfalse : running k = false) :
    (verify_urls_async_run running probe urls).1 = urls.map (fun u => verify_url u (probe u)) ∧
    (verify_urls_async_run running probe urls).2 =
      (List.range (min k (((verify_urls probe urls).length + CHUNK_SIZE - 1) / CHUNK_SIZE))).map
        (fun i => ((verify_urls probe urls).drop (i * CHUNK_SIZE)).take CHUNK_SIZE) := by
  constructor
  · show verify_urls probe urls = _
    unfold verify_urls
    exact join_chunks _ CHUNK_SIZE (by decide) urls.length urls (Nat.le_refl _)
  · show consume_go running (verify_urls probe urls) CHUNK_SIZE _ 0 = _
    have h := consume_go_eq running (verify_urls probe urls) CHUNK_SIZE
      (((verify_urls probe urls).length + CHUNK_SIZE - 1) / CHUNK_SIZE) 0 k
      (fun t ht => by simpa using htrue t ht) (by simpa using hfalse)
    rw [h]
    refine List.map_congr_left ?_
    intro t _
    simp

/-- Counterexample to claim C2 as stated: with 51 candidates, hence n = 2
batches of CHUNK_SIZE 50, and cancellation requested after batch k = 1 (the
running flag reads true at check 0 and false from check 1 on), the claim
asserts that no result from batch 2 is produced, so at most 50 results.  In
fact the engine, which never consults the flag, produces and stores all 51
results, including the whole of batch 2. -/
theorem cancellation_still_produces_later_batches :
    ((verify_urls_async_run (fun j => decide (j < 1)) (fun _ => ProbeOutcome.ok 200 3)
        (List.replicate 51 sampleUrl)).1).length = 51 ∧
    ¬ ((verify_urls_async_run (fun j => decide (j < 1)) (fun _ => ProbeOutcome.ok 200 3)
        (List.replicate 51 sampleUrl)).1).length ≤ 50 := by
  constructor
  · decide
  · decide

/-- Witness for the amended claim C2 at the concrete cancelled run of the
counterexample: the stored results equal the full map over all 51
candidates, and the consumer received exactly the first batch. -/
theorem engine_ignores_cancellation_witness :
    (verify_urls_async_run (fun j => decide (j < 1)) (fun _ => ProbeOutcome.ok 200 3)
        (List.replicate 51 sampleUrl)).1
      = (List.replicate 51 sampleUrl).map
          (fun u => verify_url u ((fun _ => ProbeOutcome.ok 200 3) u)) ∧
    (verify_urls_async_run (fun j => decide (j < 1)) (fun _ => ProbeOutcome.ok 200 3)
        (List.replicate 51 sampleUrl)).2
      = (List.range (min 1
            (((verify_urls (fun _ => ProbeOutcome.ok 200 3) (List.replicate 51 sampleUrl)).length
              + CHUNK_SIZE - 1) / CHUNK_SIZE))).map
          (fun i => ((verify_urls (fun _ => ProbeOutcome.ok 200 3)
              (List.replicate 51 sampleUrl)).drop (i * CHUNK_SIZE)).take CHUNK_SIZE) :=
  engine_ignores_cancellation_consumer_stops_at_flag (fun j => decide (j < 1))
    (fun _ => ProbeOutcome.ok 200 3) (List.replicate 51 sampleUrl) 1
    (fun j hj => decide_eq_true hj) (by decide)

lemma isEmpty_false_of_ne_nil {l : List Char} (h : l ≠ []) : l.isEmpty = false := by
  cases l with
  | nil => exact absurd rfl h
  | cons a t => rfl

lemma verify_url_ok_eval (u : UrlInfo) (hne : u.normalized_url ≠ []) (s t : Nat) :
    (verify_url u (.ok s t)).status =
      (if s < 200 then "信息响应".data else if s < 300 then "活跃".data
       else if s < 400 then "重定向".data else if s < 500 then "客户端错误".data
       else "服务器错误".data) ∧
    (verify_url u (.ok s t)).status_code = s := by
  have hni : u.normalized_url.isEmpty = false := isEmpty_false_of_ne_nil hne
  simp only [verify_url, hni, Bool.false_eq_true, if_false]
  split_ifs <;> simp_all

lemma verify_url_fail_eval (u : UrlInfo) (hne : u.normalized_url ≠ []) (e : Exc) :
    verify_url u (.fail e) = handle_error (init_result u) e := by
  have hni : u.normalized_url.isEmpty = false := isEmpty_false_of_ne_nil hne
  simp only [verify_url, hni, Bool.false_eq_true, if_false]

lemma handle_error_eval (r : VResult) (e : Exc) :
    (handle_error r e).status = first_match error_rules "网络错误".data (e.text.map to_lower) ∧
    (handle_error r e).status_code = r.status_code := by
  simp only [handle_error, first_match, error_rules]
  split_ifs <;> simp_all

/-- Claim C5: classification of a numeric HTTP status follows the fixed
breakpoints: below 200 informational (信息响应), 200 to 299 active (活跃, in
particular 200), 300 to 399 redirect (重定向, in particular 301), 400 to 499
client error (客户端错误, in particular 404), 500 and above server error
(服务器错误, in particular 503); and a transport failure whose description
contains the words timed out is assigned the timeout category (超时) with
status code 0. -/
theorem classification_table (u : UrlInfo) (t : Nat) (hne : u.normalized_url ≠ []) :
    (∀ s, s < 200 → (verify_url u (.ok s t)).status = "信息响应".data) ∧
    (∀ s, 200 ≤ s → s < 300 → (verify_url u (.ok s t)).status = "活跃".data) ∧
    (∀ s, 300 ≤ s → s < 400 → (verify_url u (.ok s t)).status = "重定向".data) ∧
    (∀ s, 400 ≤ s → s < 500 → (verify_url u (.ok s t)).status = "客户端错误".data) ∧
    (∀ s, 500 ≤ s → (verify_url u (.ok s t)).status = "服务器错误".data) ∧
    (verify_url u (.ok 200 t)).status = "活跃".data ∧
    (verify_url u (.ok 301 t)).status = "重定向".data ∧
    (verify_url u (.ok 404 t)).status = "客户端错误".data ∧
    (verify_url u (.ok 503 t)).status = "服务器错误".data ∧
    (∀ e : Exc, containsSub "timed out".data (e.text.map to_lower) = true →
      (verify_url u (.fail e)).status = "超时".data ∧
      (verify_url u (.fail e)).status_code = 0) := by
  have hok := fun s => verify_url_ok_eval u hne s t
  refine ⟨?_, ?_, ?_, ?_, ?_, ?_, ?_, ?_, ?_, ?_⟩
  · intro s hs
    rw [(hok s).1, if_pos hs]
  · intro s hs1 hs2
    rw [(hok s).1, if_neg (by omega), if_pos hs2]
  · intro s hs1 hs2
    rw [(hok s).1, if_neg (by omega), if_neg (by omega), if_pos hs2]
  · intro s hs1 hs2
    rw [(hok s).1, if_neg (by omega), if_neg (by omega), if_neg (by omega), if_pos hs2]
  · intro s hs
    rw [(hok s).1, if_neg (by omega), if_neg (by omega), if_neg (by omega), if_neg (by omega)]
  · rw [(hok 200).1]
    norm_num
  · rw [(hok 301).1]
    norm_num
  · rw [(hok 404).1]
    norm_num
  · rw [(hok 503).1]
    norm_num
  · intro e he
    rw [verify_url_fail_eval u hne e]
    constructor
    · rw [(handle_error_eval (init_result u) e).1]
      simp only [first_match, error_rules, he, if_true]
    · rw [(handle_error_eval (init_result u) e).2]
      rfl

/-- Witness for claim C5 at a concrete candidate: status 200 is classified
active and a timed-out failure is classified timeout with code 0. -/
theorem classification_table_witness :
    (verify_url sampleUrl (.ok 200 3)).status = "活跃".data ∧
    (verify_url sampleUrl (.fail timeoutExc)).status = "超时".data := by
  have h := classification_table sampleUrl 3 (by decide)
  exact ⟨h.2.2.2.2.2.1, (h.2.2.2.2.2.2.2.2.2 timeoutExc (by decide)).1⟩

/-- Claim C6: error classification of a transport failure follows the
taxonomy of the specification in fixed precedence with the first match
winning: timeout (timed out), connection refused (cannot connect), dns
failure (name not known or the resolution-error signature gaierror), tls
failure (ssl or certificate), rate limited (too many), and otherwise the
generic network error; handle_error always assigns exactly one of these six
labels. -/
theorem handle_error_first_match_taxonomy (r : VResult) (e : Exc) :
    (handle_error r e).status = first_match error_rules "网络错误".data (e.text.map to_lower) ∧
    (handle_error r e).status ∈ network_error_labels := by
  have h := handle_error_eval r e
  refine ⟨h.1, ?_⟩
  rw [h.1]
  simp only [first_match, error_rules]
  split_ifs <;> simp [network_error_labels]

/-- Claim C7: a result's status code is 0 exactly when its status is one of
the error categories (the six network-failure labels or the local invalid
label); every non-error category carries the numeric code returned by the
probe, which is positive for a real HTTP response. -/
theorem status_code_zero_iff_error_category (u : UrlInfo) (oc : ProbeOutcome)
    (hpos : ∀ s t, oc = .ok s t → 0 < s) :
    ((verify_url u oc).status_code = 0 ↔ (verify_url u oc).status ∈ error_categories) ∧
    (u.normalized_url ≠ [] → ∀ s t, oc = .ok s t → (verify_url u oc).status_code = s) := by
  rcases hu : u.normalized_url with _ | ⟨a, l⟩
  · have hni : u.normalized_url.isEmpty = true := by rw [hu]; rfl
    constructor
    · simp only [verify_url, hni, if_true]
      constructor
      · intro _
        decide
      · intro _
        rfl
    · intro hne
      exact absurd rfl hne
  · have hne : u.normalized_url ≠ [] := by rw [hu]; simp
    constructor
    · cases oc with
      | ok s t =>
        have hs : 0 < s := hpos s t rfl
        have h := verify_url_ok_eval u hne s t
        rw [h.1, h.2]
        constructor
        · intro h0
          omega
        · intro hmem
          exfalso
          revert hmem
          split_ifs <;> decide
      | fail e =>
        rw [verify_url_fail_eval u hne e]
        have h := handle_error_eval (init_result u) e
        rw [h.1, h.2]
        constructor
        · intro _
          simp only [first_match, error_rules]
          split_ifs <;> decide
        · intro _
          rfl
    · intro _ s t hoc
      subst hoc
      exact (verify_url_ok_eval u hne s t).2

/-- Witness for claim C7 at a concrete candidate and a 200 response: the
code 200 is nonzero and the active status is not an error category. -/
theorem status_code_zero_iff_error_category_witness :
    ((verify_url sampleUrl (.ok 200 3)).status_code = 0 ↔
      (verify_url sampleUrl (.ok 200 3)).status ∈ error_categories) ∧
    (sampleUrl.normalized_url ≠ [] → ∀ s t, (ProbeOutcome.ok 200 3 : ProbeOutcome) = .ok s t →
      (verify_url sampleUrl (.ok 200 3)).status_code = s) :=
  status_code_zero_iff_error_category sampleUrl (.ok 200 3)
    (fun s t h => by cases h; omega)

/-- Claim C8: normalize_url is total with the sentinel none for every
rejection (the embedding is a total Lean function, mirroring the catch-all
handler of the Python code): the two concrete malformed inputs are rejected,
and every input whose preprocessed form carries no recognizable scheme
prefix, no protocol-relative prefix and no dot is rejected with none rather
than an exception. -/
theorem normalize_url_total_rejects :
    normalize_url "not a url".data = none ∧
    normalize_url "".data = none ∧
    (∀ l : List Char,
      startsWithL httpMark (nfc (dropTrailing is_trailing_punct (pyStrip l))) = false →
      startsWithL httpsMark (nfc (dropTrailing is_trailing_punct (pyStrip l))) = false →
      startsWithL slashSlash (nfc (dropTrailing is_trailing_punct (pyStrip l))) = false →
      (nfc (dropTrailing is_trailing_punct (pyStrip l))).contains '.' = false →
      normalize_url l = none) := by
  refine ⟨by decide, by decide, ?_⟩
  intro l h1 h2 h3 h4
  unfold normalize_url
  simp only [h1, h2, h3, h4, Bool.or_self, Bool.false_or, Bool.and_false,
    Bool.false_eq_true, if_false]

/-- Witness for claim C8: an input with a scheme-like colon but neither a
recognized scheme nor a dot is rejected. -/
theorem normalize_url_total_rejects_witness :
    normalize_url "ftp:abc".data = none :=
  normalize_url_total_rejects.2.2 "ftp:abc".data (by decide) (by decide) (by decide) (by decide)

lemma mem_collect_normalized {u : List Char} :
    ∀ {ms acc : List (List Char)}, u ∈ collect_normalized ms acc →
      u ∈ acc ∨ ∃ m ∈ ms, normalize_url m = some u := by
  intro ms
  induction ms with
  | nil =>
    intro acc h
    exact Or.inl h
  | cons m ms ih =>
    intro acc h
    simp only [collect_normalized] at h
    cases hn : normalize_url m with
    | some n =>
      rw [hn] at h
      rcases ih h with hacc | ⟨m', hm', hu⟩
      · by_cases hc : acc.contains n
        · rw [if_pos hc] at hacc
          exact Or.inl hacc
        · rw [if_neg hc] at hacc
          rcases List.mem_append.mp hacc with ha | hb
          · exact Or.inl ha
          · have : u = n := by simpa using hb
            subst this
            exact Or.inr ⟨m, by simp, hn⟩
      · exact Or.inr ⟨m', by simp [hm'], hu⟩
    | none =>
      rw [hn] at h
      rcases ih h with hacc | ⟨m', hm', hu⟩
      · exact Or.inl hacc
      · exact Or.inr ⟨m', by simp [hm'], hu⟩

/-- Claim C9: every candidate emitted by extract_from_text has its
original_url equal to its normalized_url, carries the fixed manual-entry
source identifier, and its value is the normalized form of some raw regex
match of the text — no raw capture appears in the output. -/
theorem extract_from_text_normalized_only (text : List Char) (c : UrlInfo)
    (hc : c ∈ extract_from_text text manual_source) :
    c.original_url = c.normalized_url ∧ c.source_file = manual_source ∧
    ∃ m ∈ findAll text, normalize_url m = some c.normalized_url := by
  simp only [extract_from_text, List.mem_map] at hc
  obtain ⟨u, hu, rfl⟩ := hc
  refine ⟨rfl, rfl, ?_⟩
  rcases mem_collect_normalized hu with h | h
  · simp at h
  · exact h

/-- Witness for claim C9 at a concrete input text and the one candidate it
produces. -/
theorem extract_from_text_normalized_only_witness :
    sampleCandidate.original_url = sampleCandidate.normalized_url ∧
    sampleCandidate.source_file = manual_source ∧
    ∃ m ∈ findAll "Visit http://Example.com/Page?x=1 now.".data,
      normalize_url m = some sampleCandidate.normalized_url :=
  extract_from_text_normalized_only "Visit http://Example.com/Page?x=1 now.".data
    sampleCandidate (by decide)

lemma startsWithL_take {p l : List Char} (h : startsWithL p l = true) : l.take p.length = p := by
  induction p generalizing l with
  | nil => rfl
  | cons a ps ih =>
    cases l with
    | nil => exact absurd h (by simp [startsWithL])
    | cons c cs =>
      simp only [startsWithL, Bool.and_eq_true, beq_iff_eq] at h
      obtain ⟨rfl, h2⟩ := h
      simp [List.take_succ_cons, ih h2]

lemma startsWithL_append (p t : List Char) : startsWithL p (p ++ t) = true := by
  induction p with
  | nil => rfl
  | cons a ps ih => simp [startsWithL, ih]

lemma matchBody_shape {k : Nat} {l m r : List Char} (h : matchBody k l = some (m, r)) :
    m = l.take k ++ (l.drop k).takeWhile urlBodyChar ∧
    8 ≤ ((l.drop k).takeWhile urlBodyChar).length := by
  simp only [matchBody] at h
  split_ifs at h with h8
  · rw [Option.some.injEq, Prod.mk.injEq] at h
    exact ⟨h.1.symm, h8⟩

lemma matchUrlAt_shape {l m r : List Char} (h : matchUrlAt l = some (m, r)) :
    (startsWithL httpsMark m = true ∧ 8 ≤ (m.drop 8).length) ∨
    (startsWithL httpsMark m = false ∧ startsWithL httpMark m = true ∧
      8 ≤ (m.drop 7).length) := by
  unfold matchUrlAt at h
  split_ifs at h with hs hh
  · obtain ⟨hm, h8⟩ := matchBody_shape h
    have ht : l.take 8 = httpsMark := startsWithL_take hs
    rw [ht] at hm
    subst hm
    left
    refine ⟨startsWithL_append _ _, ?_⟩
    have hd : (httpsMark ++ (l.drop 8).takeWhile urlBodyChar).drop 8
        = (l.drop 8).takeWhile urlBodyChar := by
      have hlen : httpsMark.length = 8 := rfl
      rw [← hlen, List.drop_left]
    rw [hd]
    exact h8
  · obtain ⟨hm, h8⟩ := matchBody_shape h
    have ht : l.take 7 = httpMark := startsWithL_take hh
    rw [ht] at hm
    subst hm
    right
    refine ⟨rfl, startsWithL_append _ _, ?_⟩
    have hd : (httpMark ++ (l.drop 7).takeWhile urlBodyChar).drop 7
        = (l.drop 7).takeWhile urlBodyChar := by
      have hlen : httpMark.length = 7 := rfl
      rw [← hlen, List.drop_left]
    rw [hd]
    exact h8

lemma matchTail2_shape {k : Nat} {l rest run m r : List Char}
    (h : matchTail2 k l rest run = some (m, r)) :
    ∃ b : List Char, m = l.take k ++ b ∧ 9 ≤ b.length := by
  simp only [matchTail2] at h
  split_ifs at h with h9
  · rw [Option.some.injEq, Prod.mk.injEq] at h
    exact ⟨dropTrailing (fun c => c == '>') run, h.1.symm, h9⟩

lemma matchBody2_shape {k : Nat} {l m r : List Char} (h : matchBody2 k l = some (m, r)) :
    ∃ b : List Char, m = l.take k ++ b ∧ 9 ≤ b.length := by
  simp only [matchBody2] at h
  split at h
  · rename_i a after2 heq
    split_ifs at h with hcond
    · rw [Option.some.injEq, Prod.mk.injEq] at h
      refine ⟨(l.drop k).takeWhile urlBodyChar2 ++ [a], ?_, ?_⟩
      · rw [← h.1, List.append_assoc]
      · simp only [Bool.and_eq_true, decide_eq_true_eq] at hcond
        obtain ⟨h8, -⟩ := hcond
        simp only [List.length_append, List.length_cons, List.length_nil]
        omega
    · exact matchTail2_shape h
  · exact matchTail2_shape h

lemma matchUrlAt2_shape {l m r : List Char} (h : matchUrlAt2 l = some (m, r)) :
    (startsWithL httpsMark m = true ∧ 8 ≤ (m.drop 8).length) ∨
    (startsWithL httpsMark m = false ∧ startsWithL httpMark m = true ∧
      8 ≤ (m.drop 7).length) := by
  unfold matchUrlAt2 at h
  split_ifs at h with hs hh
  · obtain ⟨b, hm, hb⟩ := matchBody2_shape h
    have ht : l.take 8 = httpsMark := startsWithL_take hs
    rw [ht] at hm
    subst hm
    left
    refine ⟨startsWithL_append _ _, ?_⟩
    have hd : (httpsMark ++ b).drop 8 = b := by
      have hlen : httpsMark.length = 8 := rfl
      rw [← hlen, List.drop_left]
    rw [hd]
    omega
  · obtain ⟨b, hm, hb⟩ := matchBody2_shape h
    have ht : l.take 7 = httpMark := startsWithL_take hh
    rw [ht] at hm
    subst hm
    right
    refine ⟨rfl, startsWithL_append _ _, ?_⟩
    have hd : (httpMark ++ b).drop 7 = b := by
      have hlen : httpMark.length = 7 := rfl
      rw [← hlen, List.drop_left]
    rw [hd]
    omega

lemma mem_findAllFuel {m : List Char} :
    ∀ {fuel : Nat} {l : List Char}, m ∈ findAllFuel fuel l →
      ∃ l' r, matchUrlAt l' = some (m, r) := by
  intro fuel
  induction fuel with
  | zero =>
    intro l h
    simp [findAllFuel] at h
  | succ fuel ih =>
    intro l h
    simp only [findAllFuel] at h
    cases hm : matchUrlAt l with
    | some p =>
      obtain ⟨m1, r1⟩ := p
      rw [hm] at h
      rcases List.mem_cons.mp h with rfl | htail
      · exact ⟨l, r1, hm⟩
      · exact ih htail
    | none =>
      rw [hm] at h
      cases l with
      | nil => simp at h
      | cons c rest => exact ih h

lemma mem_findAll2Fuel {m : List Char} :
    ∀ {fuel : Nat} {l : List Char}, m ∈ findAll2Fuel fuel l →
      ∃ l' r, matchUrlAt2 l' = some (m, r) := by
  intro fuel
  induction fuel with
  | zero =>
    intro l h
    simp [findAll2Fuel] at h
  | succ fuel ih =>
    intro l h
    simp only [findAll2Fuel] at h
    cases hm : matchUrlAt2 l with
    | some p =>
      obtain ⟨m1, r1⟩ := p
      rw [hm] at h
      rcases List.mem_cons.mp h with rfl | htail
      · exact ⟨l, r1, hm⟩
      · exact ih htail
    | none =>
      rw [hm] at h
      cases l with
      | nil => simp at h
      | cons c rest => exact ih h

lemma mem_normalize_urls {us : List (List Char)} {f : List Char} {c : UrlInfo}
    (h : c ∈ normalize_urls us f) : c.original_url ∈ us := by
  simp only [normalize_urls, List.mem_filterMap] at h
  obtain ⟨u, hu, hc⟩ := h
  cases hn : normalize_url u with
  | none =>
    rw [hn] at hc
    simp at hc
  | some n =>
    rw [hn] at hc
    have hc2 : ({ original_url := u, normalized_url := n, source_file := f } : UrlInfo) = c :=
      Option.some.inj hc
    rw [← hc2]
    exact hu

lemma mem_dedupMatches {m : List Char} {ms : List (List Char)}
    (h : m ∈ dedupMatches ms) : m ∈ ms := by
  have key : ∀ (ms acc : List (List Char)),
      m ∈ ms.foldl (fun acc m => if acc.contains m then acc else acc ++ [m]) acc →
      m ∈ acc ∨ m ∈ ms := by
    intro ms
    induction ms with
    | nil =>
      intro acc h
      exact Or.inl h
    | cons x xs ih =>
      intro acc h
      simp only [List.foldl_cons] at h
      rcases ih _ h with hacc | hxs
      · by_cases hc : acc.contains x
        · rw [if_pos hc] at hacc
          exact Or.inl hacc
        · rw [if_neg hc] at hacc
          rcases List.mem_append.mp hacc with ha | hb
          · exact Or.inl ha
          · have : m = x := by simpa using hb
            exact Or.inr (by simp [this])
      · exact Or.inr (by simp [hxs])
  rcases key ms [] h with hacc | hms
  · simp at hacc
  · exact hms

/-- Claim C10: both text-scanning regex passes only produce matches with at
least 8 characters after the scheme prefix, so the short well-formed URL
http://a.io (4 characters after its scheme) is never a raw match; every
candidate of _extract_text_urls stems from such a match, and
extract_from_text on the short URL alone finds nothing. -/
theorem url_matches_min_length :
    (∀ text m : List Char, m ∈ findAll text ∨ m ∈ findAll2 text →
      8 ≤ (afterScheme m).length ∧ m ≠ "http://a.io".data) ∧
    (∀ text f : List Char, ∀ c : UrlInfo, c ∈ extract_text_urls text f →
      8 ≤ (afterScheme c.original_url).length) ∧
    extract_from_text "http://a.io".data manual_source = [] := by
  have hshape : ∀ m : List Char,
      ((startsWithL httpsMark m = true ∧ 8 ≤ (m.drop 8).length) ∨
        (startsWithL httpsMark m = false ∧ startsWithL httpMark m = true ∧
          8 ≤ (m.drop 7).length)) →
      8 ≤ (afterScheme m).length := by
    intro m hm
    rcases hm with ⟨hs, h8⟩ | ⟨hs, _, h8⟩
    · rw [afterScheme, if_pos hs]
      exact h8
    · rw [afterScheme, if_neg (by simp [hs])]
      exact h8
  have hmain : ∀ m : List Char,
      (∃ l' r, matchUrlAt l' = some (m, r)) ∨ (∃ l' r, matchUrlAt2 l' = some (m, r)) →
      8 ≤ (afterScheme m).length ∧ m ≠ "http://a.io".data := by
    intro m hm
    have h8 : 8 ≤ (afterScheme m).length := by
      rcases hm with ⟨l', r, h⟩ | ⟨l', r, h⟩
      · exact hshape m (matchUrlAt_shape h)
      · exact hshape m (matchUrlAt2_shape h)
    refine ⟨h8, ?_⟩
    intro hio
    subst hio
    revert h8
    decide
  refine ⟨?_, ?_, by decide⟩
  · intro text m hm
    rcases hm with h | h
    · simp only [findAll] at h
      exact hmain m (Or.inl (mem_findAllFuel h))
    · simp only [findAll2] at h
      exact hmain m (Or.inr (mem_findAll2Fuel h))
  · intro text f c hc
    have ho := mem_dedupMatches (mem_normalize_urls hc)
    rcases List.mem_append.mp ho with h | h
    · simp only [findAll] at h
      exact (hmain c.original_url (Or.inl (mem_findAllFuel h))).1
    · simp only [findAll2] at h
      exact (hmain c.original_url (Or.inr (mem_findAll2Fuel h))).1

/-- Witness for claim C10 at a concrete text and its one match. -/
theorem url_matches_min_length_witness :
    8 ≤ (afterScheme "http://example.com/page".data).length ∧
    "http://example.com/page".data ≠ "http://a.io".data :=
  url_matches_min_length.1 "go http://example.com/page go".data
    "http://example.com/page".data (Or.inl (by decide))

lemma dropWhile_cons_false {p : Char → Bool} {c : Char} {t : List Char} (h : p c = false) :
    (c :: t).dropWhile p = c :: t := by
  simp [List.dropWhile_cons, h]

lemma dropWhile_cons_true {p : Char → Bool} {c : Char} {t : List Char} (h : p c = true) :
    (c :: t).dropWhile p = t.dropWhile p := by
  simp [List.dropWhile_cons, h]

lemma takeWhile_cons_false {p : Char → Bool} {c : Char} {t : List Char} (h : p c = false) :
    (c :: t).takeWhile p = [] := by
  simp [List.takeWhile_cons, h]

lemma takeWhile_cons_true {p : Char → Bool} {c : Char} {t : List Char} (h : p c = true) :
    (c :: t).takeWhile p = c :: t.takeWhile p := by
  simp [List.takeWhile_cons, h]

lemma takeWhile_eq_self_of_all {p : Char → Bool} :
    ∀ {l : List Char}, (∀ c ∈ l, p c = true) → l.takeWhile p = l := by
  intro l
  induction l with
  | nil => intro _; rfl
  | cons a t ih =>
    intro h
    rw [takeWhile_cons_true (h a (by simp)), ih (fun c hc => h c (by simp [hc]))]

lemma takeWhile_append_of_all {p : Char → Bool} :
    ∀ (l1 l2 : List Char), (∀ c ∈ l1, p c = true) →
      (l1 ++ l2).takeWhile p = l1 ++ l2.takeWhile p := by
  intro l1
  induction l1 with
  | nil => intro l2 _; rfl
  | cons a t ih =>
    intro l2 h
    rw [List.cons_append, takeWhile_cons_true (h a (by simp)),
      ih l2 (fun c hc => h c (by simp [hc])), List.cons_append]

lemma mem_takeWhile_pred {p : Char → Bool} :
    ∀ {l : List Char} {c : Char}, c ∈ l.takeWhile p → p c = true := by
  intro l
  induction l with
  | nil => intro c h; simp [List.takeWhile] at h
  | cons a t ih =>
    intro c h
    by_cases ha : p a = true
    · rw [takeWhile_cons_true ha] at h
      rcases List.mem_cons.mp h with rfl | h2
      · exact ha
      · exact ih h2
    · rw [takeWhile_cons_false (by simpa using ha)] at h
      simp at h

lemma drop_length_takeWhile (p : Char → Bool) (l : List Char) :
    l.drop (l.takeWhile p).length = l.dropWhile p := by
  induction l with
  | nil => rfl
  | cons a t ih =>
    by_cases ha : p a = true
    · rw [takeWhile_cons_true ha, dropWhile_cons_true ha]
      simp only [List.length_cons, List.drop_succ_cons]
      exact ih
    · have ha2 : p a = false := by simpa using ha
      rw [takeWhile_cons_false ha2, dropWhile_cons_false ha2]
      rfl

lemma dropWhile_head_false2 {p : Char → Bool} :
    ∀ {l : List Char} {c : Char} {t : List Char}, l.dropWhile p = c :: t → p c = false := by
  intro l
  induction l with
  | nil => intro c t h; simp [List.dropWhile] at h
  | cons a as ih =>
    intro c t h
    by_cases ha : p a = true
    · rw [dropWhile_cons_true ha] at h
      exact ih h
    · have ha2 : p a = false := by simpa using ha
      rw [dropWhile_cons_false ha2] at h
      cases h
      exact ha2

lemma dropTrailing_eq_self {p : Char → Bool} {l : List Char} {c : Char}
    (hl : l.getLast? = some c) (hp : p c = false) : dropTrailing p l = l := by
  unfold dropTrailing
  have hrev : l.reverse.head? = some c := by
    rw [List.head?_reverse]
    exact hl
  cases hr : l.reverse with
  | nil =>
    rw [hr] at hrev
    simp at hrev
  | cons a t =>
    rw [hr] at hrev
    have ha : a = c := by simpa using hrev
    subst ha
    rw [dropWhile_cons_false hp, ← hr, List.reverse_reverse]

lemma tail_ok_spec {l : List Char} (hne : l ≠ []) (h : tail_ok l = true) :
    ∃ c, l.getLast? = some c ∧ is_space c = false ∧ is_trailing_punct c = false := by
  unfold tail_ok at h
  cases hg : l.getLast? with
  | none =>
    exact absurd (List.getLast?_eq_none_iff.mp hg) hne
  | some c =>
    rw [hg] at h
    simp only [Bool.not_eq_eq_eq_not, Bool.not_true, Bool.or_eq_false_iff] at h
    exact ⟨c, rfl, h.1, h.2⟩

lemma to_lower_cases (c : Char) :
    to_lower c = c ∨ to_lower c ∈ "abcdefghijklmnopqrstuvwxyz".data := by
  unfold to_lower
  split <;> first | (left; rfl) | (right; decide)

lemma to_lower_of_lower {c : Char} (h : c ∈ "abcdefghijklmnopqrstuvwxyz".data) :
    to_lower c = c := by
  have hall : ∀ d ∈ "abcdefghijklmnopqrstuvwxyz".data, to_lower d = d := by decide
  exact hall c h

lemma to_lower_to_lower (c : Char) : to_lower (to_lower c) = to_lower c := by
  rcases to_lower_cases c with h | h
  · rw [h]
    exact h
  · exact to_lower_of_lower h

lemma netlocChar_to_lower (c : Char) (h : netlocChar c = true) :
    netlocChar (to_lower c) = true := by
  rcases to_lower_cases c with hc | hc
  · rw [hc]
    exact h
  · have hall : ∀ d ∈ "abcdefghijklmnopqrstuvwxyz".data, netlocChar d = true := by decide
    exact hall _ hc

lemma ne_nil_of_not_isEmpty {l : List Char} (h : ¬ l.isEmpty = true) : l ≠ [] := by
  cases l with
  | nil => exact absurd rfl h
  | cons a t => simp

lemma normalize_url_shape {s u : List Char} (h : normalize_url s = some u) :
    ∃ mark netloc path : List Char,
      (mark = httpMark ∨ mark = httpsMark) ∧
      netloc ≠ [] ∧
      (∀ c ∈ netloc, netlocChar c = true) ∧
      (∀ c ∈ path, pathChar c = true) ∧
      (path = [] ∨ ∃ t, path = '/' :: t) ∧
      u = mark ++ netloc.map to_lower ++ path := by
  simp only [normalize_url] at h
  split at h
  · exact absurd h (by simp)
  · rename_i url heq
    split at h
    · exact absurd h (by simp)
    · rename_i scheme rest heq2
      by_cases hie : (List.takeWhile netlocChar rest).isEmpty = true
      · rw [if_pos hie] at h
        exact absurd h (by simp)
      · rw [if_neg hie] at h
        have hu := (Option.some.inj h).symm
        have hn : rest.takeWhile netlocChar ≠ [] := ne_nil_of_not_isEmpty (by simpa using hie)
        have hnc : ∀ c ∈ rest.takeWhile netlocChar, netlocChar c = true :=
          fun c hc => mem_takeWhile_pred hc
        have hpc : ∀ c ∈ (rest.drop (rest.takeWhile netlocChar).length).takeWhile pathChar,
            pathChar c = true := fun c hc => mem_takeWhile_pred hc
        have hph : (rest.drop (rest.takeWhile netlocChar).length).takeWhile pathChar = [] ∨
            ∃ t, (rest.drop (rest.takeWhile netlocChar).length).takeWhile pathChar
              = '/' :: t := by
          rw [drop_length_takeWhile]
          cases hd : rest.dropWhile netlocChar with
          | nil => left; rfl
          | cons c0 t0 =>
            have hc0 : netlocChar c0 = false := dropWhile_head_false2 hd
            have hc0d : c0 = '/' ∨ c0 = '?' ∨ c0 = '#' := by
              unfold netlocChar at hc0
              simp at hc0
              tauto
            rcases hc0d with rfl | rfl | rfl
            · right
              exact ⟨t0.takeWhile pathChar, takeWhile_cons_true (by decide)⟩
            · left
              exact takeWhile_cons_false (by decide)
            · left
              exact takeWhile_cons_false (by decide)
        unfold splitScheme at heq2
        split_ifs at heq2 with hs1 hs2
        · obtain ⟨hsch, hrest⟩ := (Prod.mk.injEq _ _ _ _).mp (Option.some.inj heq2)
          refine ⟨httpsMark, rest.takeWhile netlocChar,
            (rest.drop (rest.takeWhile netlocChar).length).takeWhile pathChar,
            Or.inr rfl, hn, hnc, hpc, hph, ?_⟩
          rw [hu, ← hsch]
          rfl
        · obtain ⟨hsch, hrest⟩ := (Prod.mk.injEq _ _ _ _).mp (Option.some.inj heq2)
          refine ⟨httpMark, rest.takeWhile netlocChar,
            (rest.drop (rest.takeWhile netlocChar).length).takeWhile pathChar,
            Or.inl rfl, hn, hnc, hpc, hph, ?_⟩
          rw [hu, ← hsch]
          rfl

lemma normalize_url_fixed {mark netloc path : List Char}
    (hmark : mark = httpMark ∨ mark = httpsMark)
    (hn : netloc ≠ [])
    (hnc : ∀ c ∈ netloc, netlocChar c = true)
    (hlow : netloc.map to_lower = netloc)
    (hpc : ∀ c ∈ path, pathChar c = true)
    (hph : path = [] ∨ ∃ t, path = '/' :: t)
    (htail : tail_ok (mark ++ netloc ++ path) = true) :
    normalize_url (mark ++ netloc ++ path) = some (mark ++ netloc ++ path) := by
  rw [List.append_assoc]
  rw [List.append_assoc] at htail
  have hune : mark ++ (netloc ++ path) ≠ [] := by
    rcases hmark with rfl | rfl <;> simp [httpMark, httpsMark]
  obtain ⟨c, hlast, hcs, hcp⟩ := tail_ok_spec hune htail
  have h1 : (mark ++ (netloc ++ path)).dropWhile is_space = mark ++ (netloc ++ path) := by
    rcases hmark with rfl | rfl
    · exact dropWhile_cons_false (by decide)
    · exact dropWhile_cons_false (by decide)
  have hpre : nfc (dropTrailing is_trailing_punct (pyStrip (mark ++ (netloc ++ path))))
      = mark ++ (netloc ++ path) := by
    unfold nfc pyStrip
    rw [h1, dropTrailing_eq_self hlast hcs, dropTrailing_eq_self hlast hcp]
  have htw : (netloc ++ path).takeWhile netlocChar = netloc := by
    rw [takeWhile_append_of_all netloc path hnc]
    rcases hph with rfl | ⟨t, rfl⟩
    · simp
    · rw [takeWhile_cons_false (by decide)]
      simp
  have hie : netloc.isEmpty = false := isEmpty_false_of_ne_nil hn
  have hdn : (netloc ++ path).drop netloc.length = path := List.drop_left _ _
  have hptw : path.takeWhile pathChar = path := takeWhile_eq_self_of_all hpc
  rcases hmark with rfl | rfl
  · have hsw : (startsWithL httpMark (httpMark ++ (netloc ++ path)) ||
        startsWithL httpsMark (httpMark ++ (netloc ++ path))) = true := by
      rw [startsWithL_append, Bool.true_or]
    have hss : splitScheme (httpMark ++ (netloc ++ path))
        = some ("http".data, netloc ++ path) := by
      unfold splitScheme
      have hfalse : startsWithL httpsMark (httpMark ++ (netloc ++ path)) = false := rfl
      rw [if_neg (by simp [hfalse]), if_pos (startsWithL_append _ _)]
      have hd7 : (httpMark ++ (netloc ++ path)).drop 7 = netloc ++ path := by
        have h7 : httpMark.length = 7 := rfl
        rw [← h7, List.drop_left]
      rw [hd7]
    simp only [normalize_url, hpre, hsw, if_true, hss, htw, hie, Bool.false_eq_true,
      if_false, hdn, hptw, hlow]
    try rfl
  · have hsw : (startsWithL httpMark (httpsMark ++ (netloc ++ path)) ||
        startsWithL httpsMark (httpsMark ++ (netloc ++ path))) = true := by
      rw [startsWithL_append, Bool.or_true]
    have hss : splitScheme (httpsMark ++ (netloc ++ path))
        = some ("https".data, netloc ++ path) := by
      unfold splitScheme
      rw [if_pos (startsWithL_append _ _)]
      have hd8 : (httpsMark ++ (netloc ++ path)).drop 8 = netloc ++ path := by
        have h8 : httpsMark.length = 8 := rfl
        rw [← h8, List.drop_left]
      rw [hd8]
    simp only [normalize_url, hpre, hsw, if_true, hss, htw, hie, Bool.false_eq_true,
      if_false, hdn, hptw, hlow]
    try rfl

/-- Counterexample to claim C1 as stated: normalization strips trailing
punctuation before the query string is discarded, so the input with path
component ending in a dot before the query normalizes to a form ending in
that dot, and a second application of normalize_url strips it: the two
applications disagree. -/
theorem normalize_url_not_idempotent :
    normalize_url "https://example.com/path.?q=1".data
      = some "https://example.com/path.".data ∧
    normalize_url "https://example.com/path.".data
      = some "https://example.com/path".data ∧
    ("https://example.com/path.".data : List Char) ≠ "https://example.com/path".data := by
  refine ⟨by decide, by decide, by decide⟩

/-- Claim C1 (amended): normalize_url is idempotent on every successfully
normalized input whose normalized form does not end in whitespace or in one
of the stripped trailing-punctuation characters; discarding the query
string and fragment can re-expose such a character at the end of the path,
and exactly there idempotence fails. -/
theorem normalize_url_idempotent_unless_stripped_tail {s u : List Char}
    (h : normalize_url s = some u) (htail : tail_ok u = true) :
    normalize_url u = some u := by
  obtain ⟨mark, netloc, path, hmark, hn, hnc, hpc, hph, hu⟩ := normalize_url_shape h
  subst hu
  refine normalize_url_fixed hmark ?_ ?_ ?_ hpc hph htail
  · intro hnil
    exact hn (List.map_eq_nil_iff.mp hnil)
  · intro c hc
    obtain ⟨d, hd, rfl⟩ := List.mem_map.mp hc
    exact netlocChar_to_lower d (hnc d hd)
  · rw [List.map_map]
    refine List.map_congr_left ?_
    intro a _
    simp only [Function.comp]
    exact to_lower_to_lower a

/-- Witness for the amended claim C1: a normalized form ending in a plain
letter is a fixed point of normalize_url. -/
theorem normalize_url_idempotent_witness :
    normalize_url "https://a.com/x".data = some "https://a.com/x".data :=
  @normalize_url_idempotent_unless_stripped_tail "https://A.com/x?q=1".data
    "https://a.com/x".data (by decide) (by decide)

end UcT
